import Mathlib

/-!
Verification development for the toot-worker repository (a Cloudflare Worker
that republishes RSS items to a Mastodon account).

The definitions below are a shallow embedding of `src/main.js`.  Machine-level
JavaScript behaviour is made explicit:

* the KV namespace (`TOOTWORKER_KV`) is a single `Option String` cell holding
  the value stored under the fixed key `"last_post"`;
* network and store failures are injected by an `Env` of oracles (`pubOk n` is
  the `response.ok` flag of the n-th Mastodon POST, `getFail n` / `putFail n`
  make the n-th KV `get` / `put` throw);
* a JavaScript `Date` is an `Option Int` of milliseconds; `none` models an
  Invalid Date (`new Date(unparsable)`), whose `NaN` makes every `<`
  comparison false;
* functions that can throw are modelled with `Except`; a `try`/`catch` that
  only logs is modelled by mapping the `.error` case back to a normal result.
-/

namespace TootWorker

/-- One parsed feed item as built by `fetchAllPosts` (src/main.js:48-61):
`description` is the composed post body, `link` the item link, `pubDateUTC`
the parsed publication date (`none` = Invalid Date). -/
structure Post where
  description : String
  link : String
  pubDateUTC : Option Int
deriving Repr, DecidableEq

/-- Environment oracles for one cycle: the HTTP outcome of each Mastodon
publish call and the failure behaviour of each KV operation. -/
structure Env where
  pubOk : Nat → Bool
  pubErrText : Nat → String
  getFail : Nat → Bool
  putFail : Nat → Bool

/-- Observable trace of a cycle: the KV cell (`store`), operation counters,
the publish calls issued (link of the item whose `description` was POSTed to
`/api/v1/statuses`, paired with the HTTP `response.ok` flag the call got) and
the KV `put` calls attempted. -/
structure CycleTrace where
  store : Option String
  nGet : Nat
  nPub : Nat
  nPut : Nat
  publishCalls : List (String × Bool)
  putCalls : List String
deriving Repr, DecidableEq

def initTrace (store0 : Option String) : CycleTrace :=
  { store := store0, nGet := 0, nPub := 0, nPut := 0,
    publishCalls := [], putCalls := [] }

/-- A KV `get` of the `"last_post"` key: returns the current cell contents, or
throws when the environment makes this operation fail. -/
def kvGet (st : Option String) (fails : Bool) : Except Unit (Option String) :=
  if fails then .error () else .ok st

/-- `isPostAlreadyPublished` (src/main.js:168-176): reads the last published
link and compares it with `===`; the surrounding `try`/`catch` turns a read
failure into `false`. -/
def isPostAlreadyPublished (link : String) (g : Except Unit (Option String)) : Bool :=
  match g with
  | .ok lastPublishedLink => lastPublishedLink == some link
  | .error _ => false

/-- `savePublishedPost` (src/main.js:183-189): `put("last_post", link)`; the
`catch` only logs, so a failed write leaves the cell unchanged and no error
escapes. -/
def savePublishedPost (link : String) (st : Option String) (fails : Bool) : Option String :=
  if fails then st else some link

/-- The `try` block of `publishToMastodon` (src/main.js:198-216): a non-ok
response makes it throw `new Error("Mastodon API Error: " + errorText)`. -/
def publishAttempt (responseOk : Bool) (errorText : String) : Except String Unit :=
  if responseOk then .ok () else .error ("Mastodon API Error: " ++ errorText)

/-- `publishToMastodon` (src/main.js:197-220): the `catch` at lines 217-219
logs the error and does not rethrow, so the function returns normally on
every HTTP outcome. -/
def publishToMastodon (responseOk : Bool) (errorText : String) : Except String Unit :=
  match publishAttempt responseOk errorText with
  | .ok _ => .ok ()
  | .error _e => .ok ()

/-- `30 * 60 * 1000` milliseconds (src/main.js:78). -/
def windowMs : Int := 30 * 60 * 1000

/-- The recency test `post.pubDateUTC < thirtyMinutesAgoUTC` (src/main.js:83).
For an Invalid Date the JavaScript comparison is `NaN < x`, which is false,
so such a post is never "older than 30 minutes". -/
def skipsOld (pubDateUTC : Option Int) (cutoff : Int) : Bool :=
  match pubDateUTC with
  | some t => decide (t < cutoff)
  | none => false

/-- One iteration of the `for` loop of `processPostsRecursively`
(src/main.js:80-105): recency check, ledger check, publish, ledger write.
The `match` on `publishToMastodon` models the item-level `catch`
(lines 102-104): had the publish call thrown, the ledger write would be
skipped; since `publishToMastodon` swallows its own error, that branch is
unreachable. -/
def stepPost (env : Env) (now : Int) (s : CycleTrace) (post : Post) : CycleTrace :=
  if skipsOld post.pubDateUTC (now - windowMs) then s
  else
    let g := kvGet s.store (env.getFail s.nGet)
    let s1 : CycleTrace := { s with nGet := s.nGet + 1 }
    if isPostAlreadyPublished post.link g then s1
    else
      let ok := env.pubOk s1.nPub
      let s2 : CycleTrace := { s1 with
        nPub := s1.nPub + 1,
        publishCalls := s1.publishCalls ++ [(post.link, ok)] }
      match publishToMastodon ok (env.pubErrText s1.nPub) with
      | .error _e => s2
      | .ok _ =>
        let s3 : CycleTrace := { s2 with
          nPut := s2.nPut + 1,
          putCalls := s2.putCalls ++ [post.link] }
        { s3 with store := savePublishedPost post.link s2.store (env.putFail s2.nPut) }

/-- `processPostsRecursively` (src/main.js:73-106): sequential loop over the
fetched posts. -/
def processPostsRecursively (posts : List Post) (env : Env) (now : Int)
    (store0 : Option String) : CycleTrace :=
  posts.foldl (stepPost env now) (initTrace store0)

/-- Outcome of `fetchAllPosts` as seen from `processLatestPosts`: the URL
check (src/main.js:23-25), the transport (`fetch` rejection, rethrown by the
`catch` at line 64), the HTTP status check (line 30-32, rethrown at line 64),
or the parsed posts (the mapping at lines 48-61 itself cannot throw). -/
inductive FetchResult where
  | invalidUrl
  | transportError
  | httpError (statusText : String)
  | success (posts : List Post)

def fetchAllPosts : FetchResult → Except String (List Post)
  | .invalidUrl => .error "Invalid RSS feed URL"
  | .transportError => .error "fetch failed"
  | .httpError st => .error ("Failed to fetch RSS feed: " ++ st)
  | .success posts => .ok posts

/-- `processLatestPosts` (src/main.js:113-132): the whole cycle.  The result
type is `Except String CycleTrace` so that an escaping exception would be
visible as `.error`; the top-level `catch` (lines 129-131) only logs, so
every branch returns `.ok`. -/
def processLatestPosts (fr : FetchResult) (env : Env) (now : Int)
    (store0 : Option String) : Except String CycleTrace :=
  match fetchAllPosts fr with
  | .error _e => .ok (initTrace store0)
  | .ok posts =>
    .ok (if posts.isEmpty then initTrace store0
         else processPostsRecursively posts env now store0)

/-- A fully reliable environment in which every publish gets a 2xx response
and no KV operation fails. -/
def okEnv : Env :=
  { pubOk := fun _ => true, pubErrText := fun _ => "",
    getFail := fun _ => false, putFail := fun _ => false }

/-- Like `okEnv`, but every Mastodon publish call gets a non-success HTTP
response whose error payload is `"boom"`. -/
def failPubEnv : Env :=
  { pubOk := fun _ => false, pubErrText := fun _ => "boom",
    getFail := fun _ => false, putFail := fun _ => false }

end TootWorker



namespace TootWorker

/-!
## The HTML-to-text normalizer

`convertHtmlToText` (src/main.js:435-445) is a chain of regex `replace`
passes over the raw string, applied to the entity-decoded input
(`decodeHtmlEntities`, src/main.js:448-469), followed by `trim()`.  Each
pass is embedded as a left-to-right scanner over `List Char` that mirrors a
global JavaScript regex replace: at each position it attempts the pattern;
on a match it emits the replacement and resumes after the matched text
(replacements are not rescanned), otherwise it emits the character and
advances by one.
-/

/-- Generic engine for one global-replace pass.  `step l` returns
`some (out, r)` when the pattern matches at the start of `l`, where `out` is
the replacement text and `r` the rest of the input after the match.  The
fuel starts at the input length; every real match consumes at least one
character, so the guard and the zero-fuel branch are never hit. -/
def scanAux (step : List Char → Option (List Char × List Char)) :
    Nat → List Char → List Char
  | _, [] => []
  | 0, l => l
  | fuel + 1, c :: rest =>
    match step (c :: rest) with
    | some (out, r) =>
      if r.length ≤ fuel then out ++ scanAux step fuel r
      else c :: scanAux step fuel rest
    | none => c :: scanAux step fuel rest

def scan (step : List Char → Option (List Char × List Char))
    (l : List Char) : List Char :=
  scanAux step l.length l

/-- Pattern step of a literal (global, case-sensitive) `String.replace`: a
match is an occurrence of `pat` starting here, replaced by `rep`. -/
def replStep (pat rep : List Char) (l : List Char) : Option (List Char × List Char) :=
  if !pat.isEmpty && pat.isPrefixOf l then some (rep, l.drop pat.length) else none

/-- One `str.replace(literal, text)` call (global, left to right,
replacements not rescanned). -/
def replaceAll (pat rep l : List Char) : List Char :=
  scan (replStep pat rep) l

/-- Value of a decimal digit string, as `Number` coerces the capture of
`/&#(\d+);/`.  (Digit strings so large that a JavaScript double would round
them are not exercised anywhere in this development.) -/
def digitsToNat (ds : List Char) : Nat :=
  ds.foldl (fun n c => n * 10 + (c.toNat - '0'.toNat)) 0

/-- `String.fromCharCode` applies `ToUint16`.  A code unit in the surrogate
range is not a Unicode scalar value; `Char.ofNat` maps it to `'\0'` (such
inputs are not exercised here). -/
def jsFromCharCode (n : Nat) : Char := Char.ofNat (n % 65536)

/-- Match of `/&#(\d+);/` at the current position (src/main.js:467). -/
def numMatch (l : List Char) : Option (Char × List Char) :=
  match l with
  | c1 :: c2 :: rest =>
    if c1 = '&' && c2 = '#' then
      let ds := rest.takeWhile Char.isDigit
      match rest.dropWhile Char.isDigit with
      | c3 :: rest2 =>
        if c3 = ';' then
          if ds.isEmpty then none else some (jsFromCharCode (digitsToNat ds), rest2)
        else none
      | [] => none
    else none
  | _ => none

def numStep (l : List Char) : Option (List Char × List Char) :=
  (numMatch l).map (fun p => ([p.1], p.2))

def isJsHexDigit (c : Char) : Bool :=
  c.isDigit || ('a' ≤ c && c ≤ 'f') || ('A' ≤ c && c ≤ 'F')

def hexDigitVal (c : Char) : Nat :=
  if c.isDigit then c.toNat - '0'.toNat
  else if 'a' ≤ c then c.toNat - 'a'.toNat + 10
  else c.toNat - 'A'.toNat + 10

def hexToNat (ds : List Char) : Nat :=
  ds.foldl (fun n c => n * 16 + hexDigitVal c) 0

/-- Match of `/&#x([a-fA-F0-9]+);/` at the current position
(src/main.js:468; the `x` is case-sensitive). -/
def hexMatch (l : List Char) : Option (Char × List Char) :=
  match l with
  | c1 :: c2 :: c3 :: rest =>
    if c1 = '&' && c2 = '#' && c3 = 'x' then
      let ds := rest.takeWhile isJsHexDigit
      match rest.dropWhile isJsHexDigit with
      | c4 :: rest2 =>
        if c4 = ';' then
          if ds.isEmpty then none else some (jsFromCharCode (hexToNat ds), rest2)
        else none
      | [] => none
    else none
  | _ => none

def hexStep (l : List Char) : Option (List Char × List Char) :=
  (hexMatch l).map (fun p => ([p.1], p.2))

/-- The seventeen literal entity replacements of `decodeHtmlEntities`
(src/main.js:449-466), in source order. -/
def entityPairs : List (String × String) :=
  [("&lt;", "<"), ("&gt;", ">"), ("&amp;", "&"), ("&quot;", "\""),
   ("&#39;", "'"), ("&rsquo;", "’"), ("&lsquo;", "‘"), ("&ldquo;", "“"),
   ("&rdquo;", "”"), ("&mdash;", "—"), ("&ndash;", "–"), ("&copy;", "©"),
   ("&reg;", "®"), ("&euro;", "€"), ("&pound;", "£"), ("&yen;", "¥"),
   ("&times;", "×"), ("&divide;", "÷")]

/-- The chain of the seventeen (plus `&#39;`) literal `replace` calls, in
source order. -/
def litPass (l : List Char) : List Char :=
  entityPairs.foldl (fun acc p => replaceAll p.1.data p.2.data acc) l

def decodeCore (l : List Char) : List Char :=
  scan hexStep (scan numStep (litPass l))

/-- `decodeHtmlEntities` (src/main.js:448-469). -/
def decodeHtmlEntities (s : String) : String :=
  ⟨decodeCore s.data⟩

/-- Tag-name alternative `(?:p|div|br)` of the block regex (case-sensitive;
the first letters are distinct, so the regex alternation is a prefix test). -/
def matchTagName : List Char → Option (List Char)
  | 'p' :: r => some r
  | 'd' :: 'i' :: 'v' :: r => some r
  | 'b' :: 'r' :: r => some r
  | _ => none

/-- `[^>]*>`: consume up to and including the first `'>'`; fail when there is
none. -/
def dropThroughGt : List Char → Option (List Char)
  | [] => none
  | '>' :: r => some r
  | _ :: r => dropThroughGt r

/-- Match of `/<\/?(?:p|div|br)[^>]*>/` after the `'<'`
(src/main.js:440).  Consuming the optional slash commits: when the slash is
present no tag name can start at it, so regex backtracking over `\/?` never
changes the outcome. -/
def matchBlockTag (l : List Char) : Option (List Char) :=
  let l1 := match l with
    | '/' :: r => r
    | _ => l
  match matchTagName l1 with
  | some r => dropThroughGt r
  | none => none

def blockStep : List Char → Option (List Char × List Char)
  | [] => none
  | c :: rest =>
    if c = '<' then (matchBlockTag rest).map (fun r => (['\n'], r)) else none

/-- Case-insensitive literal prefix (the pattern is given in lowercase). -/
def ciPrefixDrop : List Char → List Char → Option (List Char)
  | [], l => some l
  | _ :: _, [] => none
  | p :: ps, c :: cs => if c.toLower = p then ciPrefixDrop ps cs else none

/-- `([^"]*)"` and `([^"]+)"`: the characters before the next quote and the
rest after it (greedy `[^"]` cannot backtrack past the first quote). -/
def takeUntil (stop : Char) : List Char → Option (List Char × List Char)
  | [] => none
  | c :: rest =>
    if c = stop then some ([], rest)
    else (takeUntil stop rest).map (fun p => (c :: p.1, p.2))

/-- Length of the maximal run that `[^>]*` can consume here. -/
def nonGtRun (l : List Char) : Nat := (l.takeWhile (fun c => c != '>')).length

/-- A character matched by `.` in a regex without the `s` flag (anything but
a line terminator). -/
def isDotChar (c : Char) : Bool :=
  !(c = '\n' || c = '\r' || c = '\u2028' || c = '\u2029')

/-- Length of the maximal run that `.` can consume here. -/
def dotRun (l : List Char) : Nat := (l.takeWhile isDotChar).length

/-- Backtracking match of `/<img[^>]*alt="([^"]*)"[^>]*src="([^"]+)"[^>]*>/i`
(src/main.js:442) against the text after the case-insensitive `<img`.
Returns `(alt, src, rest)` on success.  The two `[^>]*` gaps are greedy with
backtracking, realized by trying the split points in descending order; the
quoted captures and the final `[^>]*>` are deterministic, so this explores
exactly the regex engine's choice points. -/
def tryImg (m : List Char) : Option (List Char × List Char × List Char) :=
  (List.range (nonGtRun m + 1)).reverse.findSome? (fun k =>
    match ciPrefixDrop ("alt=\"").data (m.drop k) with
    | none => none
    | some m2 =>
      match takeUntil '"' m2 with
      | none => none
      | some (alt, m3) =>
        (List.range (nonGtRun m3 + 1)).reverse.findSome? (fun j =>
          match ciPrefixDrop ("src=\"").data (m3.drop j) with
          | none => none
          | some m5 =>
            match takeUntil '"' m5 with
            | none => none
            | some (src, m6) =>
              if src.isEmpty then none
              else
                match dropThroughGt m6 with
                | none => none
                | some m7 => some (alt, src, m7)))

/-- Backtracking match of `/<a[^>]*href="([^"]+)"[^>]*>(.*?)<\/a>/i`
(src/main.js:441) against the text after the case-insensitive `<a`.
Returns `(linkText, href, rest)`.  The `[^>]*` gap backtracks from the
longest split; the lazy `(.*?)` tries the shortest link text first and, with
no `s` flag, cannot cross a line terminator. -/
def tryAnchor (m : List Char) : Option (List Char × List Char × List Char) :=
  (List.range (nonGtRun m + 1)).reverse.findSome? (fun k =>
    match ciPrefixDrop ("href=\"").data (m.drop k) with
    | none => none
    | some m2 =>
      match takeUntil '"' m2 with
      | none => none
      | some (href, m3) =>
        if href.isEmpty then none
        else
          match dropThroughGt m3 with
          | none => none
          | some m4 =>
            (List.range (dotRun m4 + 1)).findSome? (fun j =>
              match ciPrefixDrop ("</a>").data (m4.drop j) with
              | none => none
              | some m5 => some (m4.take j, href, m5)))

/-- One position of the `<a>` replace pass: replacement `"$2 ($1)"`. -/
def anchorStep : List Char → Option (List Char × List Char)
  | [] => none
  | c :: rest =>
    if c = '<' then
      match rest with
      | c2 :: rest2 =>
        if c2.toLower = 'a' then
          (tryAnchor rest2).map (fun t => (t.1 ++ (" (").data ++ t.2.1 ++ [')'], t.2.2))
        else none
      | [] => none
    else none

/-- One position of the `<img>` replace pass: replacement `"[$1] ($2)"`. -/
def imgStep : List Char → Option (List Char × List Char)
  | [] => none
  | c :: rest =>
    if c = '<' then
      match ciPrefixDrop ("img").data rest with
      | some m => (tryImg m).map (fun t => ('[' :: t.1 ++ ("] (").data ++ t.2.1 ++ [')'], t.2.2))
      | none => none
    else none

/-- One position of the final `/<[^>]+>/` strip pass (src/main.js:443):
at a `'<'`, consume through the first `'>'` provided at least one character
stands between them. -/
def stripStep : List Char → Option (List Char × List Char)
  | [] => none
  | c :: rest =>
    if c = '<' then
      match rest with
      | c2 :: rest2 =>
        if c2 = '>' then none
        else (dropThroughGt (c2 :: rest2)).map (fun r => (([] : List Char), r))
      | [] => none
    else none

/-- The whitespace class removed by `String.prototype.trim` (ECMAScript
WhiteSpace and LineTerminator). -/
def isJsWhitespace (c : Char) : Bool :=
  c = ' ' || c = '\t' || c = '\n' || c = '\r' || c = '\x0b' || c = '\x0c' ||
  c = '\u00A0' || c = '\uFEFF' || c = '\u1680' ||
  ('\u2000' ≤ c && c ≤ '\u200A') || c = '\u2028' || c = '\u2029' ||
  c = '\u202F' || c = '\u205F' || c = '\u3000'

/-- `String.prototype.trim`. -/
def jsTrim (l : List Char) : List Char :=
  (l.dropWhile isJsWhitespace).rdropWhile isJsWhitespace

/-- The replace chain of `convertHtmlToText` applied after entity decoding:
block tags to newlines, anchors, images, strip remaining tags, trim. -/
def convertCore (l : List Char) : List Char :=
  jsTrim (scan stripStep (scan imgStep (scan anchorStep (scan blockStep l))))

/-- `convertHtmlToText` (src/main.js:435-445): decode entities, then the
structural passes. -/
def convertHtmlToText (html : String) : String :=
  ⟨convertCore (decodeHtmlEntities html).data⟩

/-- `k` consecutive `<br>` tags. -/
def brTags : Nat → List Char
  | 0 => []
  | k + 1 => '<' :: 'b' :: 'r' :: '>' :: brTags k

/-- Spec-side reading of "at most one blank line": the flattened text never
contains three consecutive newlines. -/
def atMostOneBlankLine (s : String) : Prop :=
  ¬ ['\n', '\n', '\n'] <:+: s.data

/-- A string with no markup: no tag opener `<` and no decodable character
entity (the entity decoder leaves it unchanged). -/
def noMarkup (s : String) : Prop :=
  '<' ∉ s.data ∧ decodeHtmlEntities s = s

end TootWorker

namespace TootWorker

/-!
### Generic lemmas about the replace-pass engine

A step function is *triggered* by a character when it can only match at that
character; it is *shrinking* when every match emits strictly less text than
it consumes.  The engine is the identity when no suffix of the input fires,
and strictly shortens the text as soon as one does.
-/

theorem scanAux_nil (step : List Char → Option (List Char × List Char))
    (fuel : Nat) : scanAux step fuel [] = [] := by
  cases fuel <;> rfl

theorem scanAux_zero (step : List Char → Option (List Char × List Char))
    (l : List Char) : scanAux step 0 l = l := by
  cases l <;> rfl

theorem scanAux_cons (step : List Char → Option (List Char × List Char))
    (fuel : Nat) (c : Char) (rest : List Char) :
    scanAux step (fuel + 1) (c :: rest) =
      match step (c :: rest) with
      | some (out, r) =>
        if r.length ≤ fuel then out ++ scanAux step fuel r
        else c :: scanAux step fuel rest
      | none => c :: scanAux step fuel rest := rfl

theorem scanAux_id_of_nofire (step : List Char → Option (List Char × List Char)) :
    ∀ (l : List Char), (∀ l', l' <:+ l → step l' = none) →
      ∀ fuel, scanAux step fuel l = l := by
  intro l
  induction l with
  | nil => intro h fuel; exact scanAux_nil step fuel
  | cons c rest ih =>
    intro h fuel
    cases fuel with
    | zero => exact scanAux_zero step _
    | succ f =>
      rw [scanAux_cons, h (c :: rest) (List.suffix_refl _)]
      exact congrArg (List.cons c)
        (ih (fun l' hl' => h l' (hl'.trans (List.suffix_cons c rest))) f)

theorem scan_id_of_nofire (step : List Char → Option (List Char × List Char))
    (l : List Char) (h : ∀ l', l' <:+ l → step l' = none) : scan step l = l :=
  scanAux_id_of_nofire step l h l.length

theorem scanAux_length_le (step : List Char → Option (List Char × List Char))
    (hstep : ∀ l' out r, step l' = some (out, r) → out.length + r.length ≤ l'.length) :
    ∀ (fuel : Nat) (l : List Char), (scanAux step fuel l).length ≤ l.length := by
  intro fuel
  induction fuel with
  | zero => intro l; rw [scanAux_zero]
  | succ f ih =>
    intro l
    cases l with
    | nil => rw [scanAux_nil]
    | cons c rest =>
      rw [scanAux_cons]
      cases hs : step (c :: rest) with
      | none =>
        simp only [List.length_cons]
        exact Nat.succ_le_succ (ih rest)
      | some pr =>
        obtain ⟨out, r⟩ := pr
        dsimp only
        split
        · have h1 := hstep (c :: rest) out r hs
          have h2 := ih r
          simp only [List.length_append, List.length_cons] at h1 ⊢
          omega
        · simp only [List.length_cons]
          exact Nat.succ_le_succ (ih rest)

theorem scanAux_length_lt (step : List Char → Option (List Char × List Char))
    (hnil : step [] = none)
    (hstep : ∀ l' out r, step l' = some (out, r) → out.length + r.length < l'.length) :
    ∀ (fuel : Nat) (l : List Char), l.length ≤ fuel →
      (∃ l', l' <:+ l ∧ step l' ≠ none) →
      (scanAux step fuel l).length < l.length := by
  intro fuel
  induction fuel with
  | zero =>
    intro l hl hfire
    have : l = [] := List.eq_nil_of_length_eq_zero (Nat.le_zero.mp hl)
    subst this
    obtain ⟨l', hl', hne⟩ := hfire
    rw [List.suffix_nil.mp hl'] at hne
    exact absurd hnil hne
  | succ f ih =>
    intro l hl hfire
    cases l with
    | nil =>
      obtain ⟨l', hl', hne⟩ := hfire
      rw [List.suffix_nil.mp hl'] at hne
      exact absurd hnil hne
    | cons c rest =>
      rw [scanAux_cons]
      cases hs : step (c :: rest) with
      | some pr =>
        obtain ⟨out, r⟩ := pr
        have h1 := hstep (c :: rest) out r hs
        have hr : r.length ≤ f := by
          simp only [List.length_cons] at h1 hl
          omega
        dsimp only
        rw [if_pos hr]
        have h2 := scanAux_length_le step
          (fun l' out r h => Nat.le_of_lt (hstep l' out r h)) f r
        simp only [List.length_append, List.length_cons] at h1 h2 ⊢
        omega
      | none =>
        obtain ⟨l', hl', hne⟩ := hfire
        have hl'' : l' <:+ rest := by
          rcases List.suffix_cons_iff.mp hl' with h | h
          · rw [h] at hne; exact absurd hs hne
          · exact h
        have := ih rest (by simp only [List.length_cons] at hl; omega) ⟨l', hl'', hne⟩
        simp only [List.length_cons]
        omega

theorem scan_eq_of_length_ge (step : List Char → Option (List Char × List Char))
    (hnil : step [] = none)
    (hstep : ∀ l' out r, step l' = some (out, r) → out.length + r.length < l'.length)
    (l : List Char) (hlen : l.length ≤ (scan step l).length) : scan step l = l := by
  by_cases hfire : ∃ l', l' <:+ l ∧ step l' ≠ none
  · have := scanAux_length_lt step hnil hstep l.length l (Nat.le_refl _) hfire
    rw [scan] at hlen
    omega
  · push_neg at hfire
    exact scan_id_of_nofire step l (fun l' hl' => hfire l' hl')

theorem nofire_of_scan_eq_self (step : List Char → Option (List Char × List Char))
    (hnil : step [] = none)
    (hstep : ∀ l' out r, step l' = some (out, r) → out.length + r.length < l'.length)
    (l : List Char) (h : scan step l = l) :
    ∀ l', l' <:+ l → step l' = none := by
  intro l' hl'
  by_contra hne
  have := scanAux_length_lt step hnil hstep l.length l (Nat.le_refl _) ⟨l', hl', hne⟩
  rw [scan] at h
  rw [h] at this
  exact Nat.lt_irrefl _ this

theorem nofire_of_not_mem (step : List Char → Option (List Char × List Char))
    (c₀ : Char) (hnil : step [] = none)
    (htrig : ∀ c r, c ≠ c₀ → step (c :: r) = none)
    (l : List Char) (hmem : c₀ ∉ l) :
    ∀ l', l' <:+ l → step l' = none := by
  intro l' hl'
  cases l' with
  | nil => exact hnil
  | cons c r =>
    refine htrig c r (fun hc => hmem ?_)
    subst hc
    exact hl'.subset (List.mem_cons_self c r)

/-- Firing transfers along right extension: if the step also fires on every
right extension of a match, then "no suffix fires" transfers from a list to
any of its infixes. -/
theorem nofire_transfer (step : List Char → Option (List Char × List Char))
    (hext : ∀ l' out r ext, step l' = some (out, r) → step (l' ++ ext) ≠ none)
    (l t : List Char) (ht : t <:+: l)
    (hno : ∀ l', l' <:+ l → step l' = none) :
    ∀ l', l' <:+ t → step l' = none := by
  intro l' hl'
  cases hs : step l' with
  | none => rfl
  | some pr =>
    obtain ⟨out, r⟩ := pr
    exfalso
    obtain ⟨u, v, huv⟩ := ht
    obtain ⟨w, hw⟩ := hl'
    have hsuf : l' ++ v <:+ l := by
      refine ⟨u ++ w, ?_⟩
      rw [← huv, ← hw]
      simp [List.append_assoc]
    exact hext l' out r v hs (hno (l' ++ v) hsuf)




/-! ### Step lemmas for the individual passes -/

theorem replStep_eq_some (pat rep l out r : List Char)
    (h : replStep pat rep l = some (out, r)) :
    pat ≠ [] ∧ pat <+: l ∧ out = rep ∧ r = l.drop pat.length := by
  unfold replStep at h
  split at h
  · rename_i hcond
    simp only [Bool.and_eq_true, Bool.not_eq_true'] at hcond
    have hpair := Option.some.inj h
    refine ⟨?_, ?_, (congrArg Prod.fst hpair).symm, (congrArg Prod.snd hpair).symm⟩
    · intro hp
      subst hp
      simp at hcond
    · exact List.isPrefixOf_iff_prefix.mp hcond.2
  · exact absurd h (by simp)

theorem replStep_nil (pat rep : List Char) : replStep pat rep [] = none := by
  cases pat with
  | nil => rfl
  | cons p ps => rfl

theorem replStep_cons_none (pat rep : List Char) (c₀ c : Char) (r : List Char)
    (hpat : pat.head? = some c₀) (hc : c ≠ c₀) : replStep pat rep (c :: r) = none := by
  cases hrs : replStep pat rep (c :: r) with
  | none => rfl
  | some pr =>
    exfalso
    obtain ⟨hne, hpre, _, _⟩ := replStep_eq_some pat rep (c :: r) pr.1 pr.2 (by rw [hrs])
    cases pat with
    | nil => exact hne rfl
    | cons p ps =>
      simp only [List.head?_cons, Option.some.injEq] at hpat
      obtain ⟨t, ht⟩ := hpre
      simp only [List.cons_append, List.cons.injEq] at ht
      exact hc (by rw [← ht.1, hpat])

theorem replStep_le (pat rep : List Char) (hle : rep.length ≤ pat.length) :
    ∀ l out r, replStep pat rep l = some (out, r) →
      out.length + r.length ≤ l.length := by
  intro l out r h
  obtain ⟨hne, hpre, hout, hr⟩ := replStep_eq_some pat rep l out r h
  subst hout hr
  have hplen := hpre.length_le
  simp only [List.length_drop]
  omega

theorem replStep_strict (pat rep : List Char) (hlt : rep.length < pat.length) :
    ∀ l out r, replStep pat rep l = some (out, r) →
      out.length + r.length < l.length := by
  intro l out r h
  obtain ⟨hne, hpre, hout, hr⟩ := replStep_eq_some pat rep l out r h
  subst hout hr
  have hplen := hpre.length_le
  simp only [List.length_drop]
  omega

theorem replStep_fire_append (pat rep l out r ext : List Char)
    (h : replStep pat rep l = some (out, r)) :
    replStep pat rep (l ++ ext) ≠ none := by
  obtain ⟨hne, hpre, _, _⟩ := replStep_eq_some pat rep l out r h
  have hpre2 : pat <+: l ++ ext := hpre.trans (List.prefix_append l ext)
  have h1 : pat.isPrefixOf (l ++ ext) = true := List.isPrefixOf_iff_prefix.mpr hpre2
  have h2 : pat.isEmpty = false := by
    cases pat with
    | nil => exact absurd rfl hne
    | cons p ps => rfl
  unfold replStep
  simp [h1, h2]

theorem numStep_nil : numStep [] = none := rfl

theorem numStep_cons_none (c : Char) (r : List Char) (hc : c ≠ '&') :
    numStep (c :: r) = none := by
  cases r with
  | nil => rfl
  | cons c2 rest => simp [numStep, numMatch, hc]

theorem numMatch_eq_some (l : List Char) (ch : Char) (r : List Char)
    (h : numMatch l = some (ch, r)) :
    ∃ ds, ds ≠ [] ∧ (∀ c ∈ ds, c.isDigit = true) ∧
      l = '&' :: '#' :: (ds ++ ';' :: r) ∧
      ch = jsFromCharCode (digitsToNat ds) := by
  cases l with
  | nil => exact absurd h (by simp [numMatch])
  | cons c1 l1 =>
    cases l1 with
    | nil => exact absurd h (by simp [numMatch])
    | cons c2 rest =>
      by_cases h1 : c1 = '&'
      case neg => exact absurd h (by simp [numMatch, h1])
      by_cases h2 : c2 = '#'
      case neg => exact absurd h (by simp [numMatch, h1, h2])
      subst h1
      subst h2
      cases hd : rest.dropWhile Char.isDigit with
      | nil => exact absurd h (by simp [numMatch, hd])
      | cons c3 rest2 =>
        by_cases h3 : c3 = ';'
        case neg => exact absurd h (by simp [numMatch, hd, h3])
        subst h3
        by_cases h4 : (rest.takeWhile Char.isDigit).isEmpty
        case pos => exact absurd h (by simp [numMatch, hd, h4])
        have h5 : numMatch ('&' :: '#' :: rest) =
            some (jsFromCharCode (digitsToNat (rest.takeWhile Char.isDigit)), rest2) := by
          simp [numMatch, hd, h4]
        rw [h5] at h
        have hpair := Option.some.inj h
        have hfst : jsFromCharCode (digitsToNat (rest.takeWhile Char.isDigit)) = ch :=
          congrArg Prod.fst hpair
        have hsnd : rest2 = r := congrArg Prod.snd hpair
        refine ⟨rest.takeWhile Char.isDigit, ?_, ?_, ?_, hfst.symm⟩
        · simpa using h4
        · exact fun c hc => List.mem_takeWhile_imp hc
        · rw [← hsnd, ← hd, List.takeWhile_append_dropWhile]

theorem numStep_strict :
    ∀ l out r, numStep l = some (out, r) → out.length + r.length < l.length := by
  intro l out r h
  unfold numStep at h
  cases hm : numMatch l with
  | none => rw [hm] at h; exact absurd h (by simp)
  | some pr =>
    rw [hm] at h
    obtain ⟨ch, r'⟩ := pr
    have hpair := Option.some.inj h
    obtain ⟨ds, hne, _, hl, _⟩ := numMatch_eq_some l ch r' hm
    have hr : r = r' := (congrArg Prod.snd hpair).symm
    have hout : out = [ch] := (congrArg Prod.fst hpair).symm
    subst hr hout hl
    simp only [List.length_cons, List.length_append, List.length_nil]
    have : 1 ≤ ds.length := List.length_pos.mpr hne
    omega

theorem numStep_fire_append (l out r ext : List Char)
    (h : numStep l = some (out, r)) : numStep (l ++ ext) ≠ none := by
  unfold numStep at h ⊢
  cases hm : numMatch l with
  | none => rw [hm] at h; exact absurd h (by simp)
  | some pr =>
    obtain ⟨ch, r'⟩ := pr
    obtain ⟨ds, hne, hdig, hl, hch⟩ := numMatch_eq_some l ch r' hm
    subst hl
    have ht : (ds ++ ';' :: (r' ++ ext)).takeWhile Char.isDigit = ds := by
      rw [List.takeWhile_append_of_pos hdig, List.takeWhile_cons_of_neg (by decide)]
      exact List.append_nil ds
    have hdr : (ds ++ ';' :: (r' ++ ext)).dropWhile Char.isDigit = ';' :: (r' ++ ext) := by
      rw [List.dropWhile_append_of_pos hdig, List.dropWhile_cons_of_neg (by decide)]
    have hme : ds.isEmpty = false := by simpa using hne
    have harr : ('&' :: '#' :: (ds ++ ';' :: r')) ++ ext =
        '&' :: '#' :: (ds ++ ';' :: (r' ++ ext)) := by
      simp [List.append_assoc]
    rw [harr]
    simp [numMatch, ht, hdr, hme]

theorem hexStep_nil : hexStep [] = none := rfl

theorem hexStep_cons_none (c : Char) (r : List Char) (hc : c ≠ '&') :
    hexStep (c :: r) = none := by
  cases r with
  | nil => rfl
  | cons c2 r2 =>
    cases r2 with
    | nil => rfl
    | cons c3 rest => simp [hexStep, hexMatch, hc]

theorem hexMatch_eq_some (l : List Char) (ch : Char) (r : List Char)
    (h : hexMatch l = some (ch, r)) :
    ∃ ds, ds ≠ [] ∧ (∀ c ∈ ds, isJsHexDigit c = true) ∧
      l = '&' :: '#' :: 'x' :: (ds ++ ';' :: r) ∧
      ch = jsFromCharCode (hexToNat ds) := by
  cases l with
  | nil => exact absurd h (by simp [hexMatch])
  | cons c1 l1 =>
    cases l1 with
    | nil => exact absurd h (by simp [hexMatch])
    | cons c2 l2 =>
      cases l2 with
      | nil => exact absurd h (by simp [hexMatch])
      | cons c3 rest =>
        by_cases h1 : c1 = '&'
        case neg => exact absurd h (by simp [hexMatch, h1])
        by_cases h2 : c2 = '#'
        case neg => exact absurd h (by simp [hexMatch, h1, h2])
        by_cases h3 : c3 = 'x'
        case neg => exact absurd h (by simp [hexMatch, h1, h2, h3])
        subst h1
        subst h2
        subst h3
        cases hd : rest.dropWhile isJsHexDigit with
        | nil => exact absurd h (by simp [hexMatch, hd])
        | cons c4 rest2 =>
          by_cases h4 : c4 = ';'
          case neg => exact absurd h (by simp [hexMatch, hd, h4])
          subst h4
          by_cases h5 : (rest.takeWhile isJsHexDigit).isEmpty
          case pos => exact absurd h (by simp [hexMatch, hd, h5])
          have h6 : hexMatch ('&' :: '#' :: 'x' :: rest) =
              some (jsFromCharCode (hexToNat (rest.takeWhile isJsHexDigit)), rest2) := by
            simp [hexMatch, hd, h5]
          rw [h6] at h
          have hpair := Option.some.inj h
          have hfst : jsFromCharCode (hexToNat (rest.takeWhile isJsHexDigit)) = ch :=
            congrArg Prod.fst hpair
          have hsnd : rest2 = r := congrArg Prod.snd hpair
          refine ⟨rest.takeWhile isJsHexDigit, ?_, ?_, ?_, hfst.symm⟩
          · simpa using h5
          · exact fun c hc => List.mem_takeWhile_imp hc
          · rw [← hsnd, ← hd, List.takeWhile_append_dropWhile]

theorem hexStep_strict :
    ∀ l out r, hexStep l = some (out, r) → out.length + r.length < l.length := by
  intro l out r h
  unfold hexStep at h
  cases hm : hexMatch l with
  | none => rw [hm] at h; exact absurd h (by simp)
  | some pr =>
    rw [hm] at h
    obtain ⟨ch, r'⟩ := pr
    have hpair := Option.some.inj h
    obtain ⟨ds, hne, _, hl, _⟩ := hexMatch_eq_some l ch r' hm
    have hr : r = r' := (congrArg Prod.snd hpair).symm
    have hout : out = [ch] := (congrArg Prod.fst hpair).symm
    subst hr hout hl
    simp only [List.length_cons, List.length_append, List.length_nil]
    have : 1 ≤ ds.length := List.length_pos.mpr hne
    omega

theorem hexStep_fire_append (l out r ext : List Char)
    (h : hexStep l = some (out, r)) : hexStep (l ++ ext) ≠ none := by
  unfold hexStep at h ⊢
  cases hm : hexMatch l with
  | none => rw [hm] at h; exact absurd h (by simp)
  | some pr =>
    obtain ⟨ch, r'⟩ := pr
    obtain ⟨ds, hne, hdig, hl, hch⟩ := hexMatch_eq_some l ch r' hm
    subst hl
    have ht : (ds ++ ';' :: (r' ++ ext)).takeWhile isJsHexDigit = ds := by
      rw [List.takeWhile_append_of_pos hdig, List.takeWhile_cons_of_neg (by decide)]
      exact List.append_nil ds
    have hdr : (ds ++ ';' :: (r' ++ ext)).dropWhile isJsHexDigit = ';' :: (r' ++ ext) := by
      rw [List.dropWhile_append_of_pos hdig, List.dropWhile_cons_of_neg (by decide)]
    have hme : ds.isEmpty = false := by simpa using hne
    have harr : ('&' :: '#' :: 'x' :: (ds ++ ';' :: r')) ++ ext =
        '&' :: '#' :: 'x' :: (ds ++ ';' :: (r' ++ ext)) := by
      simp [List.append_assoc]
    rw [harr]
    simp [hexMatch, ht, hdr, hme]

theorem blockStep_nil : blockStep [] = none := rfl

theorem blockStep_cons_none (c : Char) (r : List Char) (hc : c ≠ '<') :
    blockStep (c :: r) = none := by
  simp [blockStep, hc]

theorem anchorStep_nil : anchorStep [] = none := rfl

theorem anchorStep_cons_none (c : Char) (r : List Char) (hc : c ≠ '<') :
    anchorStep (c :: r) = none := by
  simp [anchorStep, hc]

theorem imgStep_nil : imgStep [] = none := rfl

theorem imgStep_cons_none (c : Char) (r : List Char) (hc : c ≠ '<') :
    imgStep (c :: r) = none := by
  simp [imgStep, hc]

theorem stripStep_nil : stripStep [] = none := rfl

theorem stripStep_cons_none (c : Char) (r : List Char) (hc : c ≠ '<') :
    stripStep (c :: r) = none := by
  simp [stripStep, hc]

/-! ### Identity of the passes on strings without their trigger character -/

theorem scan_id_of_not_mem (step : List Char → Option (List Char × List Char))
    (c₀ : Char) (hnil : step [] = none)
    (htrig : ∀ c r, c ≠ c₀ → step (c :: r) = none)
    (l : List Char) (hmem : c₀ ∉ l) : scan step l = l :=
  scan_id_of_nofire step l (nofire_of_not_mem step c₀ hnil htrig l hmem)

theorem replaceAll_id_of_head_not_mem (pat rep l : List Char) (c₀ : Char)
    (hpat : pat.head? = some c₀) (hmem : c₀ ∉ l) : replaceAll pat rep l = l :=
  scan_id_of_not_mem _ c₀ (replStep_nil pat rep)
    (fun c r hc => replStep_cons_none pat rep c₀ c r hpat hc) l hmem

theorem litPass_id_of_no_amp (l : List Char) (hmem : '&' ∉ l) : litPass l = l := by
  have key : ∀ (pairs : List (String × String)),
      (∀ q ∈ pairs, q.1.data.head? = some '&') →
      pairs.foldl (fun acc p => replaceAll p.1.data p.2.data acc) l = l := by
    intro pairs hp
    induction pairs with
    | nil => rfl
    | cons q qs ih =>
      have h1 : replaceAll q.1.data q.2.data l = l :=
        replaceAll_id_of_head_not_mem _ _ l '&' (hp q (List.mem_cons_self q qs)) hmem
      simp only [List.foldl_cons, h1]
      exact ih (fun p hp' => hp p (List.mem_cons_of_mem q hp'))
  exact key entityPairs (by decide)

theorem scan_num_id_of_no_amp (l : List Char) (hmem : '&' ∉ l) :
    scan numStep l = l :=
  scan_id_of_not_mem numStep '&' numStep_nil
    (fun c r hc => numStep_cons_none c r hc) l hmem

theorem scan_hex_id_of_no_amp (l : List Char) (hmem : '&' ∉ l) :
    scan hexStep l = l :=
  scan_id_of_not_mem hexStep '&' hexStep_nil
    (fun c r hc => hexStep_cons_none c r hc) l hmem

theorem decodeCore_id_of_no_amp (l : List Char) (hmem : '&' ∉ l) :
    decodeCore l = l := by
  unfold decodeCore
  rw [litPass_id_of_no_amp l hmem, scan_num_id_of_no_amp l hmem,
    scan_hex_id_of_no_amp l hmem]

theorem tagPasses_id_of_no_lt (l : List Char) (hmem : '<' ∉ l) :
    scan stripStep (scan imgStep (scan anchorStep (scan blockStep l))) = l := by
  rw [scan_id_of_not_mem blockStep '<' blockStep_nil
      (fun c r hc => blockStep_cons_none c r hc) l hmem,
    scan_id_of_not_mem anchorStep '<' anchorStep_nil
      (fun c r hc => anchorStep_cons_none c r hc) l hmem,
    scan_id_of_not_mem imgStep '<' imgStep_nil
      (fun c r hc => imgStep_cons_none c r hc) l hmem,
    scan_id_of_not_mem stripStep '<' stripStep_nil
      (fun c r hc => stripStep_cons_none c r hc) l hmem]


/-! ### Lemmas about `jsTrim` -/

theorem dropWhile_head?_false (p : Char → Bool) (l : List Char) (c : Char)
    (h : (l.dropWhile p).head? = some c) : p c = false := by
  have hm := List.head?_dropWhile_not p l
  rw [h] at hm
  exact hm

theorem jsTrim_dropWhile_self (l : List Char) :
    (jsTrim l).dropWhile isJsWhitespace = jsTrim l := by
  cases h : jsTrim l with
  | nil => rfl
  | cons c t =>
    have hpre := List.rdropWhile_prefix isJsWhitespace (l.dropWhile isJsWhitespace)
    have hpre' : jsTrim l <+: l.dropWhile isJsWhitespace := hpre
    rw [h] at hpre'
    obtain ⟨u, hu⟩ := hpre'
    have hc : (l.dropWhile isJsWhitespace).head? = some c := by
      rw [← hu]
      rfl
    have hpc : isJsWhitespace c = false := dropWhile_head?_false _ l c hc
    exact List.dropWhile_cons_of_neg (by simp [hpc])

theorem jsTrim_idem (l : List Char) : jsTrim (jsTrim l) = jsTrim l := by
  show ((jsTrim l).dropWhile isJsWhitespace).rdropWhile isJsWhitespace = jsTrim l
  rw [jsTrim_dropWhile_self l]
  show ((l.dropWhile isJsWhitespace).rdropWhile isJsWhitespace).rdropWhile
      isJsWhitespace = jsTrim l
  rw [List.rdropWhile_idempotent]
  rfl

theorem jsTrim_isInfix (l : List Char) : jsTrim l <:+: l := by
  have hpre := List.rdropWhile_prefix isJsWhitespace (l.dropWhile isJsWhitespace)
  have hpre' : jsTrim l <+: l.dropWhile isJsWhitespace := hpre
  obtain ⟨v, hv⟩ := hpre'
  obtain ⟨u, hu⟩ := List.dropWhile_suffix (l := l) isJsWhitespace
  refine ⟨u, v, ?_⟩
  calc u ++ jsTrim l ++ v = u ++ (jsTrim l ++ v) := by rw [List.append_assoc]
    _ = u ++ List.dropWhile isJsWhitespace l := by rw [hv]
    _ = l := hu

theorem jsTrim_mem (l : List Char) (c : Char) (h : c ∈ jsTrim l) : c ∈ l :=
  (jsTrim_isInfix l).sublist.subset h

/-! ### The block pass on runs of `<br>` tags -/

theorem brTags_cons_eq (k : Nat) (tail : List Char) :
    brTags (k + 1) ++ tail = '<' :: 'b' :: 'r' :: '>' :: (brTags k ++ tail) := rfl

theorem blockStep_br (R : List Char) :
    blockStep ('<' :: 'b' :: 'r' :: '>' :: R) = some (['\n'], R) := rfl

theorem mem_brTags (c : Char) : ∀ k, c ∈ brTags k →
    c = '<' ∨ c = 'b' ∨ c = 'r' ∨ c = '>' := by
  intro k
  induction k with
  | zero => intro h; simp [brTags] at h
  | succ k ih =>
    intro h
    simp only [brTags, List.mem_cons] at h
    rcases h with h | h | h | h | h
    · exact Or.inl h
    · exact Or.inr (Or.inl h)
    · exact Or.inr (Or.inr (Or.inl h))
    · exact Or.inr (Or.inr (Or.inr h))
    · exact ih h

theorem scanAux_brTags (tail : List Char)
    (htail : ∀ l', l' <:+ tail → blockStep l' = none) :
    ∀ (k fuel : Nat), (brTags k ++ tail).length ≤ fuel →
      scanAux blockStep fuel (brTags k ++ tail) =
        List.replicate k '\n' ++ tail := by
  intro k
  induction k with
  | zero =>
    intro fuel hf
    simpa [brTags] using scanAux_id_of_nofire blockStep tail htail fuel
  | succ k ih =>
    intro fuel hf
    rw [brTags_cons_eq] at hf
    simp only [List.length_cons] at hf
    obtain ⟨f, rfl⟩ : ∃ f, fuel = f + 1 := ⟨fuel - 1, by omega⟩
    rw [brTags_cons_eq, scanAux_cons, blockStep_br]
    dsimp only
    rw [if_pos (by omega : (brTags k ++ tail).length ≤ f)]
    rw [ih f (by omega)]
    rfl

theorem scan_blockStep_br_run (k : Nat) :
    scan blockStep ('a' :: (brTags k ++ ['b'])) =
      'a' :: (List.replicate k '\n' ++ ['b']) := by
  have htail : ∀ l', l' <:+ (['b'] : List Char) → blockStep l' = none := by
    intro l' hl'
    rcases List.suffix_cons_iff.mp hl' with h | h
    · subst h; exact blockStep_cons_none _ _ (by decide)
    · rw [List.suffix_nil.mp h]; exact blockStep_nil
  show scanAux blockStep ('a' :: (brTags k ++ ['b'])).length
      ('a' :: (brTags k ++ ['b'])) = _
  rw [List.length_cons, scanAux_cons,
    blockStep_cons_none 'a' (brTags k ++ ['b']) (by decide)]
  rw [scanAux_brTags ['b'] htail k (brTags k ++ ['b']).length (Nat.le_refl _)]


/-! ### Transfer of "the decoder is the identity" to infixes -/

theorem scan_length_le (step : List Char → Option (List Char × List Char))
    (hstep : ∀ l' out r, step l' = some (out, r) → out.length + r.length ≤ l'.length)
    (l : List Char) : (scan step l).length ≤ l.length :=
  scanAux_length_le step hstep l.length l

theorem foldl_repl_length_le (pairs : List (String × String))
    (hp : ∀ q ∈ pairs, q.2.data.length ≤ q.1.data.length) :
    ∀ l : List Char,
      (pairs.foldl (fun acc p => replaceAll p.1.data p.2.data acc) l).length ≤
        l.length := by
  induction pairs with
  | nil => intro l; exact Nat.le_refl _
  | cons q qs ih =>
    intro l
    simp only [List.foldl_cons]
    have h1 : (replaceAll q.1.data q.2.data l).length ≤ l.length :=
      scan_length_le _ (replStep_le _ _ (hp q (List.mem_cons_self q qs))) l
    exact Nat.le_trans
      (ih (fun p hp' => hp p (List.mem_cons_of_mem q hp')) _) h1

theorem foldl_repl_ge_imp_self (pairs : List (String × String)) :
    ∀ l : List Char,
      (∀ q ∈ pairs, q.2.data.length < q.1.data.length) →
      l.length ≤
        (pairs.foldl (fun acc p => replaceAll p.1.data p.2.data acc) l).length →
      pairs.foldl (fun acc p => replaceAll p.1.data p.2.data acc) l = l ∧
        ∀ q ∈ pairs, replaceAll q.1.data q.2.data l = l := by
  induction pairs with
  | nil =>
    intro l hp hge
    exact ⟨rfl, fun q hq => absurd hq (List.not_mem_nil q)⟩
  | cons q qs ih =>
    intro l hp hge
    simp only [List.foldl_cons] at hge ⊢
    have hle_tail : (qs.foldl (fun acc p => replaceAll p.1.data p.2.data acc)
        (replaceAll q.1.data q.2.data l)).length ≤
        (replaceAll q.1.data q.2.data l).length :=
      foldl_repl_length_le qs
        (fun p h' => Nat.le_of_lt (hp p (List.mem_cons_of_mem q h'))) _
    have hle_q : (replaceAll q.1.data q.2.data l).length ≤ l.length :=
      scan_length_le _
        (replStep_le _ _ (Nat.le_of_lt (hp q (List.mem_cons_self q qs)))) l
    have hq_eq : replaceAll q.1.data q.2.data l = l := by
      have hx : l.length ≤ (replaceAll q.1.data q.2.data l).length := by omega
      exact scan_eq_of_length_ge _ (replStep_nil _ _)
        (replStep_strict _ _ (hp q (List.mem_cons_self q qs))) l hx
    rw [hq_eq] at hge ⊢
    obtain ⟨h1, h2⟩ := ih l (fun p h' => hp p (List.mem_cons_of_mem q h')) hge
    refine ⟨h1, ?_⟩
    intro q' hq'
    rcases List.mem_cons.mp hq' with h | h
    · rw [h]; exact hq_eq
    · exact h2 q' h

theorem decodeCore_self_parts (l : List Char) (h : decodeCore l = l) :
    (∀ q ∈ entityPairs, replaceAll q.1.data q.2.data l = l) ∧
    scan numStep l = l ∧ scan hexStep l = l := by
  have hplt : ∀ q ∈ entityPairs, q.2.data.length < q.1.data.length := by decide
  have hple : ∀ q ∈ entityPairs, q.2.data.length ≤ q.1.data.length :=
    fun q hq => Nat.le_of_lt (hplt q hq)
  unfold decodeCore litPass at h
  have h1 : (entityPairs.foldl
      (fun acc p => replaceAll p.1.data p.2.data acc) l).length ≤ l.length :=
    foldl_repl_length_le entityPairs hple l
  have h2 : (scan numStep (entityPairs.foldl
      (fun acc p => replaceAll p.1.data p.2.data acc) l)).length ≤
      (entityPairs.foldl (fun acc p => replaceAll p.1.data p.2.data acc) l).length :=
    scan_length_le numStep
      (fun l' o r h' => Nat.le_of_lt (numStep_strict l' o r h')) _
  have h3 : (scan hexStep (scan numStep (entityPairs.foldl
      (fun acc p => replaceAll p.1.data p.2.data acc) l))).length ≤
      (scan numStep (entityPairs.foldl
        (fun acc p => replaceAll p.1.data p.2.data acc) l)).length :=
    scan_length_le hexStep
      (fun l' o r h' => Nat.le_of_lt (hexStep_strict l' o r h')) _
  have hlen := congrArg List.length h
  obtain ⟨hfold, hstages⟩ :=
    foldl_repl_ge_imp_self entityPairs l hplt (by omega)
  rw [hfold] at h h2 h3
  have hnum : scan numStep l = l := by
    have hb_ge : l.length ≤ (scan numStep l).length := by
      have := congrArg List.length h
      omega
    exact scan_eq_of_length_ge numStep numStep_nil numStep_strict l hb_ge
  have hhex : scan hexStep l = l := by
    rw [hnum] at h
    exact h
  exact ⟨hstages, hnum, hhex⟩

theorem decodeCore_id_transfer (l t : List Char) (ht : t <:+: l)
    (h : decodeCore l = l) : decodeCore t = t := by
  have hplt : ∀ q ∈ entityPairs, q.2.data.length < q.1.data.length := by decide
  obtain ⟨hlit, hnum, hhex⟩ := decodeCore_self_parts l h
  have hnum_t : scan numStep t = t :=
    scan_id_of_nofire _ t (nofire_transfer numStep
      (fun l' out r ext hf => numStep_fire_append l' out r ext hf) l t ht
      (nofire_of_scan_eq_self numStep numStep_nil numStep_strict l hnum))
  have hhex_t : scan hexStep t = t :=
    scan_id_of_nofire _ t (nofire_transfer hexStep
      (fun l' out r ext hf => hexStep_fire_append l' out r ext hf) l t ht
      (nofire_of_scan_eq_self hexStep hexStep_nil hexStep_strict l hhex))
  have hlit_t : litPass t = t := by
    unfold litPass
    have key : ∀ pairs : List (String × String),
        (∀ q ∈ pairs, q.2.data.length < q.1.data.length) →
        (∀ q ∈ pairs, replaceAll q.1.data q.2.data l = l) →
        pairs.foldl (fun acc p => replaceAll p.1.data p.2.data acc) t = t := by
      intro pairs
      induction pairs with
      | nil => intro _ _; rfl
      | cons q qs ih =>
        intro hplen hpid
        have hq_t : replaceAll q.1.data q.2.data t = t :=
          scan_id_of_nofire _ t (nofire_transfer _
            (fun l' out r ext hf => replStep_fire_append _ _ l' out r ext hf)
            l t ht
            (nofire_of_scan_eq_self _ (replStep_nil _ _)
              (replStep_strict _ _ (hplen q (List.mem_cons_self q qs))) l
              (hpid q (List.mem_cons_self q qs))))
        simp only [List.foldl_cons, hq_t]
        exact ih (fun p h' => hplen p (List.mem_cons_of_mem q h'))
          (fun p h' => hpid p (List.mem_cons_of_mem q h'))
    exact key entityPairs hplt hlit
  show scan hexStep (scan numStep (litPass t)) = t
  rw [hlit_t, hnum_t, hhex_t]


/-! ### Unfolding equations for the top-level normalizer -/

theorem data_mk (l : List Char) : (⟨l⟩ : String).data = l := rfl

theorem convertHtmlToText_eq (s : String) :
    convertHtmlToText s = ⟨convertCore (decodeHtmlEntities s).data⟩ := by
  unfold convertHtmlToText
  rfl

theorem decodeHtmlEntities_mk (l : List Char) :
    decodeHtmlEntities ⟨l⟩ = ⟨decodeCore l⟩ := by
  unfold decodeHtmlEntities
  rw [data_mk]

theorem decodeHtmlEntities_data (s : String) :
    (decodeHtmlEntities s).data = decodeCore s.data := by
  unfold decodeHtmlEntities
  rw [data_mk]

theorem convertHtmlToText_mk (l : List Char) :
    convertHtmlToText ⟨l⟩ = ⟨convertCore (decodeCore l)⟩ := by
  rw [convertHtmlToText_eq, decodeHtmlEntities_mk, data_mk]

theorem convertCore_eq (l : List Char) :
    convertCore l = jsTrim (scan stripStep (scan imgStep (scan anchorStep
      (scan blockStep l)))) := by
  unfold convertCore
  rfl

end TootWorker

namespace TootWorker

/-- Claim C1 (status: code_bug).  The claim says the ledger is never written
for an item unless that item's publish was confirmed successful.  The code
violates this: `publishToMastodon` catches its own `throw` (the `catch` at
src/main.js:217-219 does not rethrow), so the loop proceeds to
`savePublishedPost` even when the HTTP response was non-success.  Run a cycle
with one fresh item whose publish gets a non-ok response: the ledger is still
written and ends up holding the item's link. -/
theorem ledger_written_after_failed_publish :
    (processPostsRecursively [{ description := "body", link := "L", pubDateUTC := some 0 }]
      failPubEnv 0 none).publishCalls = [("L", false)] ∧
    (processPostsRecursively [{ description := "body", link := "L", pubDateUTC := some 0 }]
      failPubEnv 0 none).putCalls = ["L"] ∧
    (processPostsRecursively [{ description := "body", link := "L", pubDateUTC := some 0 }]
      failPubEnv 0 none).store = some "L" := by
  decide

/-- Claim C2 (status: code_bug).  The claim says `publishToMastodon` fails
with a `PublishError` carrying the remote payload exactly when the response
is non-success.  The `try` block does build that error (`publishAttempt`),
but the function's own `catch` swallows it, so the caller observes a normal
return for every response, success or not. -/
theorem publish_error_swallowed :
    (∀ responseOk errorText, publishToMastodon responseOk errorText = .ok ()) ∧
    (∀ errorText, publishAttempt false errorText =
      .error ("Mastodon API Error: " ++ errorText)) ∧
    (∀ errorText, publishAttempt true errorText = .ok ()) := by
  refine ⟨fun responseOk errorText => ?_, fun errorText => rfl, fun errorText => rfl⟩
  cases responseOk <;> rfl

/-- Claim C3, counterexample.  The claim says an item with an invalid
(missing/unparsable) publish date is excluded and never posted.  In the code
the comparison `Invalid Date < cutoff` is `NaN < cutoff`, which is false, so
the item passes the recency check; with an empty ledger it is then published. -/
theorem invalid_date_item_is_posted :
    skipsOld none (0 - windowMs) = false ∧
    (processPostsRecursively [{ description := "d", link := "L", pubDateUTC := none }]
      okEnv 0 none).publishCalls = [("L", true)] := by
  decide

/-- Claim C3 as amended: the filter skips an item iff its `publishedAt` is a
valid timestamp strictly earlier than `now - window`; the boundary is
inclusive, but an item with an invalid or missing publish date is **not**
excluded — it is treated as eligible (fail-open). -/
theorem recency_filter_characterization :
    ∀ (pubDateUTC : Option Int) (cutoff : Int),
      skipsOld pubDateUTC cutoff = false ↔
        (pubDateUTC = none ∨ ∃ t, pubDateUTC = some t ∧ cutoff ≤ t) := by
  intro pd cutoff
  cases pd with
  | none => simp [skipsOld]
  | some t =>
    simp only [skipsOld, decide_eq_false_iff_not, Int.not_lt]
    constructor
    · intro h
      exact Or.inr ⟨t, rfl, h⟩
    · rintro (h | ⟨t', ht', h⟩)
      · exact absurd h (by simp)
      · cases ht'
        exact h

/-- Claim C4 (status: confirmed).  A transport failure or a non-success HTTP
status while fetching the feed aborts the whole cycle: `fetchAllPosts`
throws, the top-level `catch` of `processLatestPosts` logs it, and the cycle
ends with no publish call, no ledger access, and no escaping error. -/
theorem fetch_failure_aborts_cycle :
    ∀ (env : Env) (now : Int) (store0 : Option String) (statusText : String),
      processLatestPosts (.httpError statusText) env now store0 = .ok (initTrace store0) ∧
      processLatestPosts .transportError env now store0 = .ok (initTrace store0) ∧
      (initTrace store0).publishCalls = [] ∧
      (initTrace store0).putCalls = [] ∧
      (initTrace store0).store = store0 := by
  intro env now store0 statusText
  exact ⟨rfl, rfl, rfl, rfl, rfl⟩

/-- Claim C5 (status: confirmed).  `isPostAlreadyPublished` returns true iff
the persisted `lastPublishedLink` equals the link, and a read failure yields
false (fail-open).  Consequently, in a cycle whose ledger holds `"L1"`, a
recent item with link `"L1"` is never republished, while an item with a
different link is published (and the ledger moves to it). -/
theorem already_published_characterization :
    (∀ (link : String) (v : Option String),
        isPostAlreadyPublished link (.ok v) = true ↔ v = some link) ∧
    (∀ link : String, isPostAlreadyPublished link (.error ()) = false) ∧
    (∀ (d : String) (now : Int),
        (processPostsRecursively [{ description := d, link := "L1", pubDateUTC := some now }]
          okEnv now (some "L1")).publishCalls = []) ∧
    (∀ (d : String) (now : Int),
        (processPostsRecursively [{ description := d, link := "L2", pubDateUTC := some now }]
          okEnv now (some "L1")).publishCalls = [("L2", true)] ∧
        (processPostsRecursively [{ description := d, link := "L2", pubDateUTC := some now }]
          okEnv now (some "L1")).store = some "L2") := by
  refine ⟨?_, ?_, ?_, ?_⟩
  · intro link v
    simp [isPostAlreadyPublished]
  · intro link
    rfl
  · intro d now
    have hrec : skipsOld (some now) (now - windowMs) = false := by
      simp [skipsOld, windowMs]
    simp [processPostsRecursively, stepPost, hrec, kvGet, okEnv, isPostAlreadyPublished,
      initTrace]
  · intro d now
    have hrec : skipsOld (some now) (now - windowMs) = false := by
      simp [skipsOld, windowMs]
    simp [processPostsRecursively, stepPost, hrec, kvGet, okEnv, isPostAlreadyPublished,
      initTrace, publishToMastodon, publishAttempt, savePublishedPost]

/-- Claim C10 (status: confirmed).  Within one cycle with a reliable KV
store, after an item is published and its link written to the ledger, the
immediately following item with the same link is skipped by the ledger
check: the check re-reads the store, and the in-cycle write is visible.
Exactly one publish call is issued and the ledger holds that link. -/
theorem in_cycle_write_visible_to_next_check :
    ∀ (p q : Post) (now : Int) (store0 : Option String) (env : Env),
      (∀ n, env.getFail n = false) →
      (∀ n, env.putFail n = false) →
      skipsOld p.pubDateUTC (now - windowMs) = false →
      skipsOld q.pubDateUTC (now - windowMs) = false →
      store0 ≠ some p.link →
      q.link = p.link →
      (processPostsRecursively [p, q] env now store0).publishCalls
          = [(p.link, env.pubOk 0)] ∧
      (processPostsRecursively [p, q] env now store0).store = some p.link := by
  intro p q now store0 env hget hput hp hq hfresh hlink
  have h1 : isPostAlreadyPublished p.link (kvGet store0 (env.getFail 0)) = false := by
    simp [kvGet, hget, isPostAlreadyPublished]
    intro h
    exact absurd h hfresh
  have h2 : isPostAlreadyPublished q.link (.ok (some p.link)) = true := by
    simp [isPostAlreadyPublished, hlink]
  cases hpub : env.pubOk 0 <;>
    simp [processPostsRecursively, stepPost, hp, hq, initTrace, kvGet, hget, hput,
      isPostAlreadyPublished, hfresh, hlink, publishToMastodon, publishAttempt,
      savePublishedPost, hpub]

/-- Witness for `in_cycle_write_visible_to_next_check` at a concrete input. -/
theorem in_cycle_write_visible_witness :
    (processPostsRecursively
      [{ description := "d1", link := "L", pubDateUTC := some 0 },
       { description := "d2", link := "L", pubDateUTC := some 0 }]
      okEnv 0 none).publishCalls = [("L", okEnv.pubOk 0)] ∧
    (processPostsRecursively
      [{ description := "d1", link := "L", pubDateUTC := some 0 },
       { description := "d2", link := "L", pubDateUTC := some 0 }]
      okEnv 0 none).store = some "L" :=
  in_cycle_write_visible_to_next_check
    { description := "d1", link := "L", pubDateUTC := some 0 }
    { description := "d2", link := "L", pubDateUTC := some 0 }
    0 none okEnv (fun _ => rfl) (fun _ => rfl) (by decide) (by decide)
    (by decide) rfl


/-- Claim C6 (status: confirmed).  `decodeHtmlEntities` runs before the
structural passes inside `convertHtmlToText`, decoding named, decimal and
hexadecimal character references; in particular the two round-trips the spec
pins down. -/
theorem entity_decoding_examples :
    convertHtmlToText "&amp;" = "&" ∧
    convertHtmlToText "&#169;" = "©" ∧
    convertHtmlToText "&#39;" = "'" ∧
    convertHtmlToText "&#x2019;" = "’" := by
  exact ⟨by decide, by decide, by decide, by decide⟩

/-- Claim C7, counterexample.  The block pass replaces every `p`/`div`/`br`
tag by one newline and never collapses runs: three consecutive `<br>` tags
yield three newlines, i.e. two blank lines, violating "at most one blank
line". -/
theorem consecutive_brs_not_collapsed :
    convertHtmlToText "a<br><br><br>b" = "a\n\n\nb" ∧
    ¬ atMostOneBlankLine (convertHtmlToText "a<br><br><br>b") := by
  refine ⟨by decide, ?_⟩
  intro h
  exact h ⟨['a'], ['b'], by decide⟩

/-- Claim C7 as amended: each block-level tag is replaced by exactly one
newline and consecutive block boundaries are **not** collapsed — a run of
`k` consecutive `<br>` tags becomes exactly `k` newlines (hence `k - 1`
blank lines), for every `k`. -/
theorem block_tags_become_single_newlines (k : Nat) :
    convertHtmlToText ⟨'a' :: (brTags k ++ ['b'])⟩ =
      ⟨'a' :: (List.replicate k '\n' ++ ['b'])⟩ := by
  have hamp : '&' ∉ ('a' :: (brTags k ++ ['b'])) := by
    intro h
    simp only [List.mem_cons, List.mem_append, List.mem_singleton] at h
    rcases h with h | h | h
    · exact absurd h (by decide)
    · rcases mem_brTags '&' k h with h | h | h | h <;> exact absurd h (by decide)
    · exact absurd h (by decide)
  have hM : '<' ∉ ('a' :: (List.replicate k '\n' ++ ['b'])) := by
    intro h
    simp only [List.mem_cons, List.mem_append, List.mem_singleton,
      List.mem_replicate] at h
    rcases h with h | h | h
    · exact absurd h (by decide)
    · exact absurd h.2 (by decide)
    · exact absurd h (by decide)
  rw [convertHtmlToText_mk, decodeCore_id_of_no_amp _ hamp, convertCore_eq]
  rw [scan_blockStep_br_run k,
    scan_id_of_not_mem anchorStep '<' anchorStep_nil
      (fun c r hc => anchorStep_cons_none c r hc) _ hM,
    scan_id_of_not_mem imgStep '<' imgStep_nil
      (fun c r hc => imgStep_cons_none c r hc) _ hM,
    scan_id_of_not_mem stripStep '<' stripStep_nil
      (fun c r hc => stripStep_cons_none c r hc) _ hM]
  refine congrArg String.mk ?_
  unfold jsTrim
  rw [List.dropWhile_cons_of_neg (by decide)]
  rw [show 'a' :: (List.replicate k '\n' ++ ['b']) =
    ('a' :: List.replicate k '\n') ++ ['b'] from rfl]
  exact List.rdropWhile_concat_neg _ _ _ (by decide)

/-- Claim C8, counterexample.  The image regex requires an `alt="..."`
attribute (before `src`); an image tag carrying only a source URL does not
match, falls through to the strip pass, and is deleted — the literal
`"Image"` is never produced. -/
theorem img_without_alt_is_stripped :
    convertHtmlToText "<img src=\"http://x/i.png\">" = "" ∧
    convertHtmlToText "<img src=\"http://x/i.png\">" ≠ "[Image] (http://x/i.png)" := by
  exact ⟨by decide, by decide⟩

/-- Claim C8 as amended: an image tag whose `alt` attribute precedes its
`src` attribute converts to `"[<alt>] (<src>)"` (an empty `alt` gives
`"[]"`); an image tag with no `alt` attribute — or with `alt` after `src` —
is stripped entirely, with no `"Image"` placeholder. -/
theorem img_conversion_requires_alt :
    convertHtmlToText "<img alt=\"A\" src=\"U\">" = "[A] (U)" ∧
    convertHtmlToText "<img alt=\"\" src=\"U\">" = "[] (U)" ∧
    convertHtmlToText "<img src=\"U\">" = "" ∧
    convertHtmlToText "<img src=\"U\" alt=\"A\">" = "" := by
  exact ⟨by decide, by decide, by decide, by decide⟩

/-- Claim C9 (status: confirmed).  On a string with no markup — no `<` and
no decodable character entity — `convertHtmlToText` reduces to `trim()`,
and trimming is idempotent, so the normalizer is idempotent on such
strings. -/
theorem normalize_idempotent_on_plain_text (s : String) (h : noMarkup s) :
    convertHtmlToText (convertHtmlToText s) = convertHtmlToText s := by
  obtain ⟨hlt, hdec⟩ := h
  have hdec' : decodeCore s.data = s.data := by
    rw [← decodeHtmlEntities_data]
    exact congrArg String.data hdec
  have h1 : convertHtmlToText s = ⟨jsTrim s.data⟩ := by
    rw [convertHtmlToText_eq s, hdec, convertCore_eq,
      tagPasses_id_of_no_lt s.data hlt]
  rw [h1]
  have hlt2 : '<' ∉ jsTrim s.data := fun hm => hlt (jsTrim_mem s.data '<' hm)
  have hdec2 : decodeCore (jsTrim s.data) = jsTrim s.data :=
    decodeCore_id_transfer s.data (jsTrim s.data) (jsTrim_isInfix s.data) hdec'
  rw [convertHtmlToText_mk, hdec2, convertCore_eq,
    tagPasses_id_of_no_lt _ hlt2, jsTrim_idem]

/-- Witness for `normalize_idempotent_on_plain_text` at a concrete
markup-free string. -/
theorem normalize_idempotent_witness :
    noMarkup "hello world" ∧
    convertHtmlToText (convertHtmlToText "hello world") =
      convertHtmlToText "hello world" := by
  have h : noMarkup "hello world" := ⟨by decide, by decide⟩
  exact ⟨h, normalize_idempotent_on_plain_text "hello world" h⟩

end TootWorker
